import Mathlib

/-!
# Verification of the chunk reconstruction and re-publication engine

A shallow embedding, in Lean 4, of the core logic of the
`backfill-from-irys` repository: the stream assembler
(`fetchArweaveChunks` in `fetch-arweave-chunks.mjs`), its helpers
(`fetchTxOffset`, `fetchChunkFromPeer`, `normalisePeer`), and the chunk
re-uploader (`reuploadChunks` in `reupload.mjs`).

Conventions of the embedding:
* JavaScript `BigInt` values (byte offsets, sizes) are modelled as `Int`.
* `Buffer` contents are modelled as `List Nat` (one entry per byte).
* Network responses are supplied by oracle functions; a missing response
  (`none`) models the situation where every peer failed, which in the
  source throws the aggregated error.
* The unbounded `while` loops of the source are modelled with explicit
  fuel; a result of `none` means the loop has not exited within the
  given number of iterations.
-/

namespace Backfill

/-- One successful result of `fetchChunk`: the decoded chunk bytes and the
chunk's absolute start position, exactly the two fields the assembly loop
reads (`buf`, `start`). -/
structure ChunkResp where
  start : Int
  buf : List Nat
deriving Repr, DecidableEq

/-- The mutable state of the assembly loop in `fetchArweaveChunks`:
`buffers`, `bytesAccum` and `nextPos`. -/
structure AsmState where
  buffers : List (List Nat)
  bytesAccum : Int
  nextPos : Int
deriving Repr, DecidableEq

/-- The `sliceStart` computation of the assembly loop:
`let sliceStart = 0; if (start < nextPos) sliceStart = Number(nextPos - start)`.
(The `Number` conversion of the source is exact for the sizes involved;
here it is `Int.toNat`, which agrees because the branch guard makes the
difference positive.) -/
def sliceStartOf (nextPos : Int) (r : ChunkResp) : Nat :=
  if r.start < nextPos then (nextPos - r.start).toNat else 0

/-- The `usable` slice the loop body keeps from the fetched chunk `r`:
drop `sliceStart` bytes from the front (`buf.slice(sliceStart)`), then
truncate to the remaining byte budget (`usable.slice(0, remaining)`).
(In the source `remaining` is positive whenever the loop body runs,
because of the `bytesAccum < size` guard, so `Int.toNat` is exact.) -/
def usableSlice (size : Int) (st : AsmState) (r : ChunkResp) : List Nat :=
  if (size - st.bytesAccum).toNat < (r.buf.drop (sliceStartOf st.nextPos r)).length then
    (r.buf.drop (sliceStartOf st.nextPos r)).take ((size - st.bytesAccum).toNat)
  else
    r.buf.drop (sliceStartOf st.nextPos r)

/-- One iteration of the assembly loop body of `fetchArweaveChunks`
(lines 406–432 of the source), given the fetched chunk `r`: append the
usable slice, add its length to `bytesAccum`, and set
`nextPos = start + buf.length` (the first byte after the chunk). -/
def asmStep (size : Int) (st : AsmState) (r : ChunkResp) : AsmState :=
  { buffers := st.buffers ++ [usableSlice size st r]
    bytesAccum := st.bytesAccum + (usableSlice size st r).length
    nextPos := r.start + r.buf.length }

/-- Outcome of a run of `fetchArweaveChunks`.  `ok payload` means the
final length check passed and `payload` was written to the output file;
`incomplete` is the `Incomplete: expected … but assembled …` error thrown
before writing; `networkFailure` is the `All peers failed` error
propagating out of `fetchChunk`. -/
inductive FetchOutcome where
  | ok (payload : List Nat)
  | incomplete (expected : Int) (got : Nat)
  | networkFailure
deriving Repr, DecidableEq

/-- The assembly loop of `fetchArweaveChunks` with explicit fuel.
`resps p` is the result of `fetchChunk(allPeers, p, …)`: `some r` when a
peer returned the chunk `r` for position `p`, `none` when every peer
failed (the source then throws).  After the loop the source concatenates
the buffers, throws `Incomplete` if the total differs from `size`, and
otherwise writes the file.  `none` means the fuel ran out with the loop
still running. -/
def asmRun (size : Int) (resps : Int → Option ChunkResp) :
    Nat → AsmState → Option FetchOutcome
  | 0, _ => none
  | fuel + 1, st =>
    if st.bytesAccum < size then
      match resps st.nextPos with
      | none => some .networkFailure
      | some r => asmRun size resps fuel (asmStep size st r)
    else
      if (st.buffers.flatten.length : Int) = size then some (.ok st.buffers.flatten)
      else some (.incomplete size st.buffers.flatten.length)

/-- The absolute starting byte of the transaction,
`const startOffset = endOffset - size + 1n`, computed in `BigInt` (here
`Int`) arithmetic. -/
def startOffsetOf (endOffset size : Int) : Int :=
  endOffset - size + 1

/-- The body of `fetchArweaveChunks` from the resolved offset lookup on:
start the assembly loop at `startOffsetOf endOffset size` with empty
buffers. -/
def fetchArweaveChunks (endOffset size : Int) (resps : Int → Option ChunkResp)
    (fuel : Nat) : Option FetchOutcome :=
  asmRun size resps fuel { buffers := [], bytesAccum := 0, nextPos := startOffsetOf endOffset size }

/-- The bytes of the network-wide payload at positions
`start, start+1, …, start+n-1`, for stating faithfulness of assembly. -/
def payloadWindow (payload : Int → Nat) (start : Int) (n : Nat) : List Nat :=
  (List.range n).map fun (i : Nat) => payload (start + (i : Int))

/-- The offset handling of `fetchChunkFromPeer` (lines 308–322): the decoded
bytes together with the inferred absolute start and end of the chunk.
`offsetField` is the optional `offset` field of the JSON response;
when absent the source assumes
`respEnd = absPos + BigInt(buf.length) - 1n`, and in both cases
`chunkStart = respEnd - BigInt(buf.length) + 1n`. -/
structure FetchedChunk where
  buf : List Nat
  start : Int
  endPos : Int
deriving Repr, DecidableEq

def fetchChunkFromPeer (absPos : Int) (bytes : List Nat) (offsetField : Option Int) :
    FetchedChunk :=
  let respEnd : Int :=
    match offsetField with
    | some o => o
    | none => absPos + bytes.length - 1
  let chunkStart : Int := respEnd - bytes.length + 1
  { buf := bytes, start := chunkStart, endPos := respEnd }

/-! ## Offset resolution (`fetchTxOffset`, lines 277–305) -/

/-- A peer's reply to `GET (peer)/tx/(txid)/offset`.  `json o s` is an
HTTP success whose body carries the `offset` and `size` fields when the
corresponding `Option` is `some` (the source tests both fields against
`undefined`; a `null` body behaves like one with both fields missing).
`netErr` is a thrown request error. -/
inductive OffsetReply where
  | json (offset : Option Int) (size : Option Int)
  | netErr
deriving Repr, DecidableEq

/-- The per-peer errors `fetchTxOffset` accumulates: the
`Malformed response from p` error it constructs, or the caught
transport error of peer `p`. -/
inductive PeerErr where
  | malformed (peer : String)
  | transport (peer : String)
deriving Repr, DecidableEq

/-- Whether a reply carries both required fields. -/
def wellFormedReply : OffsetReply → Bool
  | .json (some _) (some _) => true
  | _ => false

/-- The `for (const p of peers)` loop of `fetchTxOffset`, carrying the
`errors` array. -/
def fetchTxOffsetGo (reply : String → OffsetReply) :
    List String → List PeerErr → Except (List PeerErr) (String × Int × Int)
  | [], errors => .error errors
  | p :: rest, errors =>
    match reply p with
    | .json (some o) (some s) => .ok (p, o, s)
    | .json _ _ => fetchTxOffsetGo reply rest (errors ++ [.malformed p])
    | .netErr => fetchTxOffsetGo reply rest (errors ++ [.transport p])

/-- The `fetchTxOffset` operation: try the peers in order, return the first reply
carrying both `offset` and `size`, otherwise throw the error aggregating
every peer's individual error. -/
def fetchTxOffset (peers : List String) (reply : String → OffsetReply) :
    Except (List PeerErr) (String × Int × Int) :=
  fetchTxOffsetGo reply peers []

/-! ## Chunk re-upload (`reuploadChunks` in `reupload.mjs`, lines 9–104) -/

/-- What one try of the body of the per-chunk `while (true)` loop runs
into, for a given chunk: `validationFail` models `validatePath` returning
false (the `Unable to validate chunk` throw); `status c` models the POST
completing with HTTP status `c` (transport errors are normalised by the
source to a response with status `-1`, so they are `status (-1)`). -/
inductive TryResult where
  | validationFail
  | status (code : Int)
deriving Repr, DecidableEq

/-- The status test of the source: `200` or `208` (Already Reported)
count as success; everything else, and a validation failure, does not. -/
def isSuccess : TryResult → Bool
  | .status c => c = 200 || c = 208
  | .validationFail => false

def MAX_RETRIES_PER_CHUNK : Nat := 5

def RETRY_DELAY_MS_BASE : Nat := 750

/-- Result of the per-chunk retry loop: whether the chunk was uploaded,
the final value of the `attempt` counter, and the list of backoff delays
slept through (in order), i.e. the arguments of the `sleep(delay)`
calls. -/
structure ChunkResult where
  success : Bool
  attemptsUsed : Nat
  delays : List Nat
deriving Repr, DecidableEq

/-- The per-chunk `while (true)` loop of `reuploadChunks`.  `outcome t`
is what the `t`-th try (0-based) of this chunk runs into.  `attempt` is
the source's `attempt` counter, which at the top of the loop equals the
number of failed tries so far and hence the index of the current try.
On failure the counter is incremented; when it exceeds
`MAX_RETRIES_PER_CHUNK` the loop gives up, otherwise it sleeps
`RETRY_DELAY_MS_BASE * attempt` ms and retries. -/
def chunkLoop (outcome : Nat → TryResult) (attempt : Nat) : ChunkResult :=
  if isSuccess (outcome attempt) then
    { success := true, attemptsUsed := attempt, delays := [] }
  else if MAX_RETRIES_PER_CHUNK < attempt + 1 then
    { success := false, attemptsUsed := attempt + 1, delays := [] }
  else
    let r := chunkLoop outcome (attempt + 1)
    { success := r.success, attemptsUsed := r.attemptsUsed,
      delays := RETRY_DELAY_MS_BASE * (attempt + 1) :: r.delays }
termination_by MAX_RETRIES_PER_CHUNK + 1 - attempt
decreasing_by simp [MAX_RETRIES_PER_CHUNK] at *; omega

/-- The `for (let i = 0; i < totalChunks; i++)` loop of `reuploadChunks`,
accumulating `(successCount, failedChunks)`.  A failed chunk is recorded
as `i + 1` (`failedChunks.push(i + 1)` in the source). -/
def reuploadState (totalChunks : Nat) (outcome : Nat → Nat → TryResult) :
    Nat × List Nat :=
  (List.range totalChunks).foldl
    (fun st i =>
      if (chunkLoop (outcome i) 0).success then (st.1 + 1, st.2)
      else (st.1, st.2 ++ [i + 1]))
    (0, [])

/-- The `reuploadChunks` operation: run every chunk, then succeed iff
`successCount === totalChunks`, otherwise throw, reporting the
accumulated `failedChunks`. -/
def reuploadChunks (totalChunks : Nat) (outcome : Nat → Nat → TryResult) :
    Except (List Nat) Nat :=
  let st := reuploadState totalChunks outcome
  if st.1 = totalChunks then .ok st.1 else .error st.2

/-! ## Peer normalisation (`normalisePeer`, lines 232–242)

Strings are modelled as `List Char` so that the trimming, prefixing and
slash-dropping of the source become structurally tractable list
operations.  `jsTrim` models the `trim()` builtin (strip leading and
trailing whitespace; `Char.isWhitespace` stands for the JS whitespace
class). -/

/-- The `p.trim()` call: drop whitespace from both ends. -/
def jsTrim (cs : List Char) : List Char :=
  ((cs.dropWhile Char.isWhitespace).reverse.dropWhile Char.isWhitespace).reverse

/-- The case-insensitive scheme test of the source: the string starts
with `http://` or `https://`, ignoring case. -/
def hasHttpScheme (cs : List Char) : Bool :=
  let l := cs.map Char.toLower
  List.isPrefixOf ("http://".toList) l || List.isPrefixOf ("https://".toList) l

/-- The trailing-slash removal of the source: drop one trailing slash if
present. -/
def dropTrailingSlash (cs : List Char) : List Char :=
  if cs.getLast? = some '/' then cs.dropLast else cs

/-- The `normalisePeer` function: trim; return `null` on the empty string; prefix
`http://` when no scheme is present; drop one trailing slash. -/
def normalisePeer (p : List Char) : Option (List Char) :=
  let url := jsTrim p
  if url = [] then none
  else
    let url2 := if hasHttpScheme url then url else "http://".toList ++ url
    some (dropTrailingSlash url2)

/-! ## Concrete scenarios used to settle the claims -/

/-- A payload whose byte at absolute position `p` is `p.toNat`; used to
state faithfulness of assembly on concrete runs. -/
def idPayload : Int → Nat := fun p => p.toNat

/-- A chunk oracle that is honest about `idPayload` (every response's
bytes are exactly the payload bytes of its claimed range) but whose
response for position `2` is a chunk lying entirely before position `2`:
a well-formed but adversarial peer. -/
def dupResps : Int → Option ChunkResp := fun p =>
  if p = 0 then some ⟨0, [0, 1]⟩
  else if p = 2 then some ⟨0, [0]⟩
  else if p = 1 then some ⟨1, [1, 2]⟩
  else none

/-- A chunk oracle that always answers the request for position `p` with
a one-byte chunk ending at `p - 1` (entirely before the requested
position).  The assembly loop then drops every byte of it and computes
`nextPos = start + buf.length = p` again: no progress is ever made. -/
def stallResps : Int → Option ChunkResp := fun p => some ⟨p - 1, [7]⟩

/-- The assembly run for a 1-byte transaction against `stallResps` never
exits, with any amount of fuel: the loop neither terminates nor raises
any error. -/
def stallDiverges : Prop :=
  ∀ fuel, fetchArweaveChunks 0 1 stallResps fuel = none

/-- An honest, position-containing chunk oracle over `idPayload`:
the response for position `p` is the two payload bytes starting at `p`. -/
def honestResps : Int → Option ChunkResp := fun p =>
  some ⟨p, [p.toNat, (p + 1).toNat]⟩

/-- The upload scenario of the spec: four chunks, every try of the chunk
at index `2` fails with a non-success status, every other chunk succeeds
immediately. -/
def scenOutcome : Nat → Nat → TryResult :=
  fun i _ => if i = 2 then .status 503 else .status 200

/-- An offset-lookup reply table: peer `a` answers without an `offset`
field, every other peer answers with both fields. -/
def replyW : String → OffsetReply :=
  fun p => if p = "a" then .json none (some 5) else .json (some 999) (some 1000)

/-! ## Helper lemmas -/

/-- If a run of the assembly loop returns `ok out`, then the final
length check succeeded, i.e. `out.length = size`. -/
theorem asmRun_ok_length (size : Int) (resps : Int → Option ChunkResp) :
    ∀ fuel st out, asmRun size resps fuel st = some (.ok out) →
      (out.length : Int) = size := by
  intro fuel
  induction fuel with
  | zero => intro st out h; simp [asmRun] at h
  | succ n ih =>
    intro st out h
    rw [asmRun] at h
    by_cases hg : st.bytesAccum < size
    · rw [if_pos hg] at h
      cases hr : resps st.nextPos with
      | none => rw [hr] at h; simp at h
      | some r => rw [hr] at h; exact ih _ _ h
    · rw [if_neg hg] at h
      by_cases he : ((st.buffers.flatten.length : Int) = size)
      · rw [if_pos he] at h
        have hout : st.buffers.flatten = out := by
          injection h with h'
          injection h'
        rw [← hout]
        exact he
      · rw [if_neg he] at h
        simp at h

/-- If a run of the assembly loop returns `incomplete e g`, the final
length check failed: `e` is the declared size and `g` a differing
length. -/
theorem asmRun_incomplete (size : Int) (resps : Int → Option ChunkResp) :
    ∀ fuel st e g, asmRun size resps fuel st = some (.incomplete e g) →
      e = size ∧ (g : Int) ≠ size := by
  intro fuel
  induction fuel with
  | zero => intro st e g h; simp [asmRun] at h
  | succ n ih =>
    intro st e g h
    rw [asmRun] at h
    by_cases hg : st.bytesAccum < size
    · rw [if_pos hg] at h
      cases hr : resps st.nextPos with
      | none => rw [hr] at h; simp at h
      | some r => rw [hr] at h; exact ih _ _ _ h
    · rw [if_neg hg] at h
      by_cases he : ((st.buffers.flatten.length : Int) = size)
      · rw [if_pos he] at h
        simp at h
      · rw [if_neg he] at h
        have h' := Option.some.inj h
        obtain ⟨h1, h2⟩ := FetchOutcome.incomplete.inj h'
        exact ⟨h1.symm, by rw [← h2]; exact he⟩

theorem payloadWindow_length (f : Int → Nat) (s : Int) (n : Nat) :
    (payloadWindow f s n).length = n := by
  simp [payloadWindow]

theorem payloadWindow_append (f : Int → Nat) (s : Int) (m k : Nat) :
    payloadWindow f s (m + k) = payloadWindow f s m ++ payloadWindow f (s + m) k := by
  unfold payloadWindow
  rw [List.range_add, List.map_append, List.map_map]
  congr 1
  refine List.map_congr_left ?_
  intro i _
  show f (s + ((m + i : Nat) : Int)) = f (s + (m : Int) + (i : Int))
  congr 1
  push_cast
  ring

theorem payloadWindow_drop_add (f : Int → Nat) (s : Int) (d k : Nat) :
    (payloadWindow f s (d + k)).drop d = payloadWindow f (s + d) k := by
  have h := List.drop_left (payloadWindow f s d) (payloadWindow f (s + d) k)
  rw [payloadWindow_length] at h
  rw [payloadWindow_append]
  exact h

theorem payloadWindow_take_add (f : Int → Nat) (s : Int) (t k : Nat) :
    (payloadWindow f s (t + k)).take t = payloadWindow f s t := by
  have h := List.take_left (payloadWindow f s t) (payloadWindow f (s + t) k)
  rw [payloadWindow_length] at h
  rw [payloadWindow_append]
  exact h

/-- Under the containment assumption (the fetched chunk contains the
requested byte) and with the loop guard active, the usable slice kept
from a chunk whose bytes agree with the payload is exactly a window of
the payload starting at the requested position, of positive length `u`
within the remaining budget; and when `u` does not exhaust the budget no
truncation happened, so the slice reaches the end of the chunk. -/
theorem usableSlice_spec (payload : Int → Nat) (size : Int) (st : AsmState) (r : ChunkResp)
    (hbr : r.buf = payloadWindow payload r.start r.buf.length)
    (hc1 : r.start ≤ st.nextPos) (hc2 : st.nextPos < r.start + (r.buf.length : Int))
    (ha : st.bytesAccum < size) :
    ∃ u : Nat, 1 ≤ u ∧ (u : Int) ≤ size - st.bytesAccum ∧
      usableSlice size st r = payloadWindow payload st.nextPos u ∧
      ((u : Int) < size - st.bytesAccum →
        st.nextPos + u = r.start + r.buf.length) := by
  have hdInt : (sliceStartOf st.nextPos r : Int) = st.nextPos - r.start := by
    unfold sliceStartOf
    split
    · rw [Int.toNat_of_nonneg (by omega)]
    · next hlt => simp; omega
  have hdlt : sliceStartOf st.nextPos r < r.buf.length := by omega
  have hdrop : r.buf.drop (sliceStartOf st.nextPos r) =
      payloadWindow payload st.nextPos (r.buf.length - sliceStartOf st.nextPos r) := by
    obtain ⟨k, hk⟩ : ∃ k, r.buf.length = sliceStartOf st.nextPos r + k :=
      ⟨r.buf.length - sliceStartOf st.nextPos r, by omega⟩
    conv_lhs => rw [hbr, hk]
    rw [payloadWindow_drop_add]
    congr 1
    · omega
    · omega
  have hlendrop : (r.buf.drop (sliceStartOf st.nextPos r)).length =
      r.buf.length - sliceStartOf st.nextPos r := by simp
  have hremInt : (((size - st.bytesAccum).toNat : Int)) = size - st.bytesAccum := by
    rw [Int.toNat_of_nonneg (by omega)]
  unfold usableSlice
  split
  · next hT =>
    refine ⟨(size - st.bytesAccum).toNat, by omega, by omega, ?_, by omega⟩
    rw [hdrop] at hT ⊢
    rw [payloadWindow_length] at hT
    obtain ⟨k, hk⟩ : ∃ k, r.buf.length - sliceStartOf st.nextPos r =
        (size - st.bytesAccum).toNat + k :=
      ⟨r.buf.length - sliceStartOf st.nextPos r - (size - st.bytesAccum).toNat, by omega⟩
    rw [hk, payloadWindow_take_add]
  · next hT =>
    rw [hdrop] at hT ⊢
    rw [payloadWindow_length] at hT
    refine ⟨r.buf.length - sliceStartOf st.nextPos r, by omega, by omega, rfl, by omega⟩

/-- Under the same assumptions, the usable slice is nonempty — needed
for termination — even without assuming the chunk bytes are honest. -/
theorem usableSlice_length_pos (size : Int) (st : AsmState) (r : ChunkResp)
    (hc1 : r.start ≤ st.nextPos) (hc2 : st.nextPos < r.start + (r.buf.length : Int))
    (ha : st.bytesAccum < size) :
    1 ≤ (usableSlice size st r).length := by
  have hdInt : (sliceStartOf st.nextPos r : Int) = st.nextPos - r.start := by
    unfold sliceStartOf
    split
    · rw [Int.toNat_of_nonneg (by omega)]
    · next hlt => simp; omega
  have hdlt : sliceStartOf st.nextPos r < r.buf.length := by omega
  unfold usableSlice
  split
  · next hT =>
    rw [List.length_take]
    omega
  · next hT =>
    rw [List.length_drop] at hT ⊢
    omega

/-- The usable slice never exceeds the remaining byte budget. -/
theorem usableSlice_length_le (size : Int) (st : AsmState) (r : ChunkResp) :
    (usableSlice size st r).length ≤ (size - st.bytesAccum).toNat := by
  unfold usableSlice
  split
  · next hT => rw [List.length_take]; omega
  · next hT => omega

/-- Invariant preservation for the assembly loop: if the buffers so far
hold exactly the payload bytes from `start0` up to `bytesAccum`, the
accumulator is within bounds, and `nextPos` points just past them, then
a successful run yields exactly the payload window of the declared
size.  Requires the oracle to be honest about the payload and every
response to contain the requested position. -/
theorem asmRun_faithful_aux (payload : Int → Nat) (size : Int)
    (resps : Int → Option ChunkResp)
    (hhon : ∀ p r, resps p = some r →
      r.buf = payloadWindow payload r.start r.buf.length)
    (hcon : ∀ p r, resps p = some r →
      r.start ≤ p ∧ p < r.start + (r.buf.length : Int))
    (start0 : Int) :
    ∀ fuel st out,
      st.buffers.flatten = payloadWindow payload start0 st.bytesAccum.toNat →
      0 ≤ st.bytesAccum → st.bytesAccum ≤ size →
      (st.bytesAccum < size → st.nextPos = start0 + st.bytesAccum) →
      asmRun size resps fuel st = some (.ok out) →
      out = payloadWindow payload start0 size.toNat := by
  intro fuel
  induction fuel with
  | zero => intro st out _ _ _ _ h; simp [asmRun] at h
  | succ n ih =>
    intro st out hbuf h0 hle hpos h
    rw [asmRun] at h
    by_cases hg : st.bytesAccum < size
    · rw [if_pos hg] at h
      cases hr : resps st.nextPos with
      | none => rw [hr] at h; simp at h
      | some r =>
        rw [hr] at h
        obtain ⟨hc1, hc2⟩ := hcon st.nextPos r hr
        obtain ⟨u, hu1, hu2, huw, hu3⟩ :=
          usableSlice_spec payload size st r (hhon st.nextPos r hr) hc1 hc2 hg
        have hlen : (usableSlice size st r).length = u := by
          rw [huw, payloadWindow_length]
        have hnp : st.nextPos = start0 + st.bytesAccum := hpos hg
        refine ih (asmStep size st r) out ?_ ?_ ?_ ?_ h
        · show (st.buffers ++ [usableSlice size st r]).flatten =
            payloadWindow payload start0
              (st.bytesAccum + ((usableSlice size st r).length : Int)).toNat
          rw [List.flatten_append]
          simp only [List.flatten_cons, List.flatten_nil, List.append_nil]
          rw [hbuf, huw, payloadWindow_length]
          have htn : (st.bytesAccum + (u : Int)).toNat = st.bytesAccum.toNat + u := by
            omega
          rw [htn, payloadWindow_append]
          have hcast : start0 + ((st.bytesAccum.toNat : Nat) : Int) = st.nextPos := by
            omega
          rw [hcast]
        · show 0 ≤ st.bytesAccum + ((usableSlice size st r).length : Int)
          omega
        · show st.bytesAccum + ((usableSlice size st r).length : Int) ≤ size
          rw [hlen]
          omega
        · intro hlt
          have hlt' : st.bytesAccum + ((usableSlice size st r).length : Int) < size := hlt
          show r.start + (r.buf.length : Int) =
            start0 + (st.bytesAccum + ((usableSlice size st r).length : Int))
          rw [hlen] at hlt' ⊢
          have := hu3 (by omega)
          omega
    · rw [if_neg hg] at h
      by_cases he : ((st.buffers.flatten.length : Int) = size)
      · rw [if_pos he] at h
        have hout : st.buffers.flatten = out := by
          injection h with h'
          injection h'
        have hsz : st.bytesAccum = size := le_antisymm hle (not_lt.mp hg)
        rw [← hout, hbuf, hsz]
      · rw [if_neg he] at h
        simp at h

/-- Fuel bound for the assembly loop: when every response contains the
requested position, every iteration accumulates at least one byte, so
`(size - bytesAccum).toNat` bounds the remaining iterations. -/
theorem asmRun_progress (size : Int) (resps : Int → Option ChunkResp)
    (hcon : ∀ p r, resps p = some r →
      r.start ≤ p ∧ p < r.start + (r.buf.length : Int)) :
    ∀ fuel st, (size - st.bytesAccum).toNat < fuel →
      asmRun size resps fuel st ≠ none := by
  intro fuel
  induction fuel with
  | zero => intro st hfuel; omega
  | succ n ih =>
    intro st hfuel
    rw [asmRun]
    by_cases hg : st.bytesAccum < size
    · rw [if_pos hg]
      cases hr : resps st.nextPos with
      | none => simp
      | some r =>
        obtain ⟨hc1, hc2⟩ := hcon st.nextPos r hr
        have hp := usableSlice_length_pos size st r hc1 hc2 hg
        refine ih (asmStep size st r) ?_
        show (size - (st.bytesAccum + ((usableSlice size st r).length : Int))).toNat < n
        omega
    · rw [if_neg hg]
      split <;> simp

/-- Against `stallResps` the loop makes no progress from any state that
still needs bytes: the step keeps `bytesAccum` and `nextPos` unchanged,
so no amount of fuel makes the run exit. -/
theorem stallResps_no_exit : ∀ (fuel : Nat) (st : AsmState),
    st.bytesAccum < 1 → asmRun 1 stallResps fuel st = none := by
  intro fuel
  induction fuel with
  | zero => intro st _; rfl
  | succ n ih =>
    intro st hst
    rw [asmRun, if_pos hst]
    show asmRun 1 stallResps n (asmStep 1 st ⟨st.nextPos - 1, [7]⟩) = none
    have hd : sliceStartOf st.nextPos ⟨st.nextPos - 1, [7]⟩ = 1 := by
      show (if (st.nextPos - 1 : Int) < st.nextPos
        then (st.nextPos - (st.nextPos - 1)).toNat else 0) = 1
      rw [if_pos (by omega)]
      omega
    have hu : usableSlice 1 st ⟨st.nextPos - 1, [7]⟩ = [] := by
      unfold usableSlice
      rw [hd]
      rw [if_neg (by simp)]
      rfl
    refine ih (asmStep 1 st ⟨st.nextPos - 1, [7]⟩) ?_
    show st.bytesAccum + ((usableSlice 1 st ⟨st.nextPos - 1, [7]⟩).length : Int) < 1
    rw [hu]
    simpa using hst

/-- A `dropWhile` leaves a list unchanged when its head fails the
predicate. -/
theorem dropWhile_eq_self_of_head (p : Char → Bool) (l : List Char)
    (h : ∀ c, l.head? = some c → p c = false) : l.dropWhile p = l := by
  cases l with
  | nil => rfl
  | cons a t => rw [List.dropWhile_cons, h a rfl]; simp

/-- The head of a `dropWhile` result fails the predicate. -/
theorem head?_dropWhile (p : Char → Bool) : ∀ (l : List Char) (c : Char),
    (l.dropWhile p).head? = some c → p c = false := by
  intro l
  induction l with
  | nil => intro c h; simp at h
  | cons a t ih =>
    intro c h
    rw [List.dropWhile_cons] at h
    by_cases hp : p a
    · rw [if_pos hp] at h
      exact ih c h
    · rw [if_neg hp] at h
      have : a = c := by simpa using h
      rw [← this]
      simpa using hp

/-- The last character of a trimmed string is not whitespace. -/
theorem getLast?_jsTrim (l : List Char) (c : Char)
    (h : (jsTrim l).getLast? = some c) : c.isWhitespace = false := by
  unfold jsTrim at h
  rw [List.getLast?_reverse] at h
  exact head?_dropWhile _ _ c h

/-- The first character of a trimmed string is not whitespace. -/
theorem head?_jsTrim (l : List Char) (c : Char)
    (h : (jsTrim l).head? = some c) : c.isWhitespace = false := by
  unfold jsTrim at h
  rw [List.head?_reverse] at h
  have hne : (l.dropWhile Char.isWhitespace).reverse.dropWhile Char.isWhitespace ≠ [] := by
    intro h0
    rw [h0] at h
    simp at h
  have hlast : ((l.dropWhile Char.isWhitespace).reverse.dropWhile
      Char.isWhitespace).getLast? = (l.dropWhile Char.isWhitespace).reverse.getLast? := by
    conv_rhs => rw [← List.takeWhile_append_dropWhile Char.isWhitespace
      (l.dropWhile Char.isWhitespace).reverse]
    rw [List.getLast?_append_of_ne_nil _ hne]
  rw [hlast, List.getLast?_reverse] at h
  exact head?_dropWhile _ _ c h

/-- Trimming fixes any string whose two ends are not whitespace. -/
theorem jsTrim_eq_self (l : List Char)
    (h1 : ∀ c, l.head? = some c → c.isWhitespace = false)
    (h2 : ∀ c, l.getLast? = some c → c.isWhitespace = false) : jsTrim l = l := by
  unfold jsTrim
  rw [dropWhile_eq_self_of_head _ _ h1]
  rw [dropWhile_eq_self_of_head _ _ ?_]
  · exact List.reverse_reverse l
  · intro c hc
    rw [List.head?_reverse] at hc
    exact h2 c hc

/-- A successful `fetchTxOffsetGo` run returns the first well-formed
peer, in list order, together with its reply's fields. -/
theorem fetchTxOffsetGo_ok (reply : String → OffsetReply) :
    ∀ (peers : List String) (acc : List PeerErr) (p : String) (o s : Int),
      fetchTxOffsetGo reply peers acc = .ok (p, o, s) →
        reply p = .json (some o) (some s) ∧
        ∃ pre suf, peers = pre ++ p :: suf ∧
          ∀ q ∈ pre, wellFormedReply (reply q) = false := by
  intro peers
  induction peers with
  | nil => intro acc p o s h; simp [fetchTxOffsetGo] at h
  | cons q rest ih =>
    intro acc p o s h
    rcases hq : reply q with ⟨(_ | ov), (_ | sv)⟩ | _ <;>
      simp only [fetchTxOffsetGo, hq] at h
    · obtain ⟨hr, pre, suf, hps, hpre⟩ := ih _ p o s h
      refine ⟨hr, q :: pre, suf, by simp [hps], ?_⟩
      intro x hx
      rcases List.mem_cons.mp hx with rfl | hx
      · rw [hq]; rfl
      · exact hpre x hx
    · obtain ⟨hr, pre, suf, hps, hpre⟩ := ih _ p o s h
      refine ⟨hr, q :: pre, suf, by simp [hps], ?_⟩
      intro x hx
      rcases List.mem_cons.mp hx with rfl | hx
      · rw [hq]; rfl
      · exact hpre x hx
    · obtain ⟨hr, pre, suf, hps, hpre⟩ := ih _ p o s h
      refine ⟨hr, q :: pre, suf, by simp [hps], ?_⟩
      intro x hx
      rcases List.mem_cons.mp hx with rfl | hx
      · rw [hq]; rfl
      · exact hpre x hx
    · injection h with h'
      injection h' with h1 h23
      injection h23 with h2 h3
      subst h1; subst h2; subst h3
      exact ⟨hq, [], rest, rfl, by simp⟩
    · obtain ⟨hr, pre, suf, hps, hpre⟩ := ih _ p o s h
      refine ⟨hr, q :: pre, suf, by simp [hps], ?_⟩
      intro x hx
      rcases List.mem_cons.mp hx with rfl | hx
      · rw [hq]; rfl
      · exact hpre x hx

/-- A failed `fetchTxOffsetGo` run means every remaining peer was
ill-formed, and contributes exactly one error per peer on top of the
accumulator. -/
theorem fetchTxOffsetGo_error (reply : String → OffsetReply) :
    ∀ (peers : List String) (acc errs : List PeerErr),
      fetchTxOffsetGo reply peers acc = .error errs →
        (∀ p ∈ peers, wellFormedReply (reply p) = false) ∧
        errs.length = acc.length + peers.length := by
  intro peers
  induction peers with
  | nil =>
    intro acc errs h
    injection h with h'
    subst h'
    exact ⟨by simp, by simp⟩
  | cons q rest ih =>
    intro acc errs h
    rcases hq : reply q with ⟨(_ | ov), (_ | sv)⟩ | _ <;>
      simp only [fetchTxOffsetGo, hq] at h
    case _ =>
      obtain ⟨hall, hlen⟩ := ih _ _ h
      refine ⟨?_, by simp at hlen; simp [hlen]; omega⟩
      intro x hx
      rcases List.mem_cons.mp hx with rfl | hx
      · rw [hq]; rfl
      · exact hall x hx
    case _ =>
      obtain ⟨hall, hlen⟩ := ih _ _ h
      refine ⟨?_, by simp at hlen; simp [hlen]; omega⟩
      intro x hx
      rcases List.mem_cons.mp hx with rfl | hx
      · rw [hq]; rfl
      · exact hall x hx
    case _ =>
      obtain ⟨hall, hlen⟩ := ih _ _ h
      refine ⟨?_, by simp at hlen; simp [hlen]; omega⟩
      intro x hx
      rcases List.mem_cons.mp hx with rfl | hx
      · rw [hq]; rfl
      · exact hall x hx
    case _ => exact absurd h (by simp)
    case _ =>
      obtain ⟨hall, hlen⟩ := ih _ _ h
      refine ⟨?_, by simp at hlen; simp [hlen]; omega⟩
      intro x hx
      rcases List.mem_cons.mp hx with rfl | hx
      · rw [hq]; rfl
      · exact hall x hx

/-- If every peer's reply is ill-formed, `fetchTxOffsetGo` fails. -/
theorem fetchTxOffsetGo_error_of_all (reply : String → OffsetReply) :
    ∀ (peers : List String) (acc : List PeerErr),
      (∀ p ∈ peers, wellFormedReply (reply p) = false) →
      ∃ errs, fetchTxOffsetGo reply peers acc = .error errs := by
  intro peers
  induction peers with
  | nil => intro acc _; exact ⟨acc, rfl⟩
  | cons q rest ih =>
    intro acc hall
    have hrest : ∀ p ∈ rest, wellFormedReply (reply p) = false :=
      fun p hp => hall p (List.mem_cons_of_mem q hp)
    have hq0 : wellFormedReply (reply q) = false := hall q (List.mem_cons_self q rest)
    rcases hq : reply q with ⟨(_ | ov), (_ | sv)⟩ | _ <;>
      simp only [fetchTxOffsetGo, hq]
    · exact ih _ hrest
    · exact ih _ hrest
    · exact ih _ hrest
    · rw [hq] at hq0; simp [wellFormedReply] at hq0
    · exact ih _ hrest

/-- Unfolding equation for `chunkLoop`. -/
theorem chunkLoop_unfold (outcome : Nat → TryResult) (attempt : Nat) :
    chunkLoop outcome attempt =
      if isSuccess (outcome attempt) then
        { success := true, attemptsUsed := attempt, delays := [] }
      else if MAX_RETRIES_PER_CHUNK < attempt + 1 then
        { success := false, attemptsUsed := attempt + 1, delays := [] }
      else
        { success := (chunkLoop outcome (attempt + 1)).success,
          attemptsUsed := (chunkLoop outcome (attempt + 1)).attemptsUsed,
          delays := RETRY_DELAY_MS_BASE * (attempt + 1) ::
            (chunkLoop outcome (attempt + 1)).delays } := by
  rw [chunkLoop]

/-- Peeling one element off an arithmetic-progression backoff list. -/
theorem range_map_backoff_succ (B a L : Nat) :
    (List.range (L + 1)).map (fun n => B * (a + 1 + n)) =
      B * (a + 1) :: (List.range L).map (fun n => B * (a + 1 + 1 + n)) := by
  rw [List.range_succ_eq_map, List.map_cons, List.map_map]
  refine List.cons_eq_cons.mpr ⟨by simp, ?_⟩
  refine List.map_congr_left ?_
  intro n _
  show B * (a + 1 + (n + 1)) = B * (a + 1 + 1 + n)
  congr 1
  omega

/-- From a starting attempt counter `a` with `a + k` equal to the retry
budget, the loop sleeps at most `k` more times, and its delays are the
consecutive backoffs `BASE * (a+1), BASE * (a+2), …`. -/
theorem chunkLoop_delays_general (outcome : Nat → TryResult) :
    ∀ (k a : Nat), a + k = MAX_RETRIES_PER_CHUNK →
      (chunkLoop outcome a).delays.length ≤ k ∧
      (chunkLoop outcome a).delays =
        (List.range (chunkLoop outcome a).delays.length).map
          (fun n => RETRY_DELAY_MS_BASE * (a + 1 + n)) := by
  intro k
  induction k with
  | zero =>
    intro a ha
    have ha5 : a = MAX_RETRIES_PER_CHUNK := by omega
    subst ha5
    rw [chunkLoop_unfold]
    by_cases hs : isSuccess (outcome MAX_RETRIES_PER_CHUNK)
    · rw [if_pos hs]; simp
    · rw [if_neg hs, if_pos (by omega)]; simp
  | succ k ih =>
    intro a ha
    rw [chunkLoop_unfold]
    by_cases hs : isSuccess (outcome a)
    · rw [if_pos hs]; simp
    · rw [if_neg hs, if_neg (by omega)]
      obtain ⟨ihl, ihd⟩ := ih (a + 1) (by omega)
      refine ⟨by simpa using Nat.succ_le_succ ihl, ?_⟩
      simp only [List.length_cons]
      rw [range_map_backoff_succ]
      exact congrArg (List.cons _) ihd

/-- The per-chunk loop succeeds from attempt `a` (with `a + k` equal to
the budget) iff some try between `a` and the budget succeeds. -/
theorem chunkLoop_success_general (outcome : Nat → TryResult) :
    ∀ (k a : Nat), a + k = MAX_RETRIES_PER_CHUNK →
      ((chunkLoop outcome a).success = true ↔
        ∃ t, a ≤ t ∧ t ≤ MAX_RETRIES_PER_CHUNK ∧ isSuccess (outcome t) = true) := by
  intro k
  induction k with
  | zero =>
    intro a ha
    have ha5 : a = MAX_RETRIES_PER_CHUNK := by omega
    subst ha5
    rw [chunkLoop_unfold]
    by_cases hs : isSuccess (outcome MAX_RETRIES_PER_CHUNK)
    · rw [if_pos hs]
      exact ⟨fun _ => ⟨MAX_RETRIES_PER_CHUNK, le_refl _, le_refl _, hs⟩, fun _ => rfl⟩
    · rw [if_neg hs, if_pos (by omega)]
      constructor
      · intro h; exact absurd h (by simp)
      · rintro ⟨t, ht1, ht2, hts⟩
        have ht : t = MAX_RETRIES_PER_CHUNK := le_antisymm ht2 ht1
        exact absurd (ht ▸ hts) hs
  | succ k ih =>
    intro a ha
    rw [chunkLoop_unfold]
    by_cases hs : isSuccess (outcome a)
    · rw [if_pos hs]
      exact ⟨fun _ => ⟨a, le_refl _, by omega, hs⟩, fun _ => rfl⟩
    · rw [if_neg hs, if_neg (by omega)]
      have H := ih (a + 1) (by omega)
      constructor
      · intro h
        obtain ⟨t, h1, h2, h3⟩ := H.mp h
        exact ⟨t, by omega, h2, h3⟩
      · rintro ⟨t, h1, h2, h3⟩
        refine H.mpr ⟨t, ?_, h2, h3⟩
        rcases Nat.eq_or_lt_of_le h1 with rfl | hlt
        · exact absurd h3 hs
        · omega

/-- Closed form of the upload loop's accumulated state: the success
count is the number of successful chunks, and the failed list is the
(one-based) positions of the failed chunks, in ascending order. -/
theorem reuploadState_spec (outcome : Nat → Nat → TryResult) :
    ∀ n, reuploadState n outcome =
      ((List.range n).countP (fun i => (chunkLoop (outcome i) 0).success),
       ((List.range n).filter (fun i => !(chunkLoop (outcome i) 0).success)).map
         (· + 1)) := by
  intro n
  induction n with
  | zero => rfl
  | succ n ih =>
    simp only [reuploadState] at ih ⊢
    rw [List.range_succ, List.foldl_append, ih, List.foldl_cons, List.foldl_nil,
      List.countP_append, List.filter_append, List.map_append]
    by_cases hs : (chunkLoop (outcome n) 0).success
    · rw [if_pos hs]
      simp [hs]
    · rw [if_neg hs]
      simp [hs]

/-! ## Claims -/

/-- Claim C3. For every offset-lookup response with end offset `E` and
size `S` (`S > 0`), the resolved absolute start offset equals
`E - S + 1`, computed in arbitrary-precision integer arithmetic (here
`Int`); in particular for the response with offset 999 and size 1000 the
resolved start offset equals 0. -/
theorem startOffset_resolved (E S : Int) (_hS : 0 < S) :
    startOffsetOf E S = E - S + 1 ∧ startOffsetOf 999 1000 = 0 :=
  ⟨rfl, by decide⟩

theorem startOffset_resolved_witness :
    (0 : Int) < 1000 ∧
      (startOffsetOf 999 1000 = 999 - 1000 + 1 ∧ startOffsetOf 999 1000 = 0) :=
  ⟨by decide, startOffset_resolved 999 1000 (by decide)⟩

/-- Claim C9. When a chunk response omits the optional `offset` field,
`fetchChunkFromPeer` assumes the chunk ends at
`requestedPosition + len(bytes) - 1`, so the computed start equals the
requested position: it never precedes it, and the caller's `sliceStart`
for it is `0` (zero bytes trimmed from the front). -/
theorem fetchChunkFromPeer_no_offset_field (absPos : Int) (bytes : List Nat) :
    (fetchChunkFromPeer absPos bytes none).endPos = absPos + bytes.length - 1 ∧
    (fetchChunkFromPeer absPos bytes none).start = absPos ∧
    ¬ (fetchChunkFromPeer absPos bytes none).start < absPos ∧
    sliceStartOf absPos ⟨(fetchChunkFromPeer absPos bytes none).start, bytes⟩ = 0 := by
  have hstart : (fetchChunkFromPeer absPos bytes none).start = absPos := by
    simp [fetchChunkFromPeer]
    ring
  refine ⟨by simp [fetchChunkFromPeer], hstart, ?_, ?_⟩
  · rw [hstart]; exact lt_irrefl _
  · rw [hstart]; simp [sliceStartOf]

/-- Claim C1. If `fetchArweaveChunks` returns normally (`ok out`, i.e. the
assembled payload was written to the output file) then the payload's
length is exactly the resolved `size`; whenever the concatenated
buffers' total length differs from `size` the run ends in the
`Incomplete` error (`incomplete` outcome) instead, and no artifact is
written. -/
theorem fetchArweaveChunks_exact_size (endOffset size : Int)
    (resps : Int → Option ChunkResp) (fuel : Nat) :
    (∀ out, fetchArweaveChunks endOffset size resps fuel = some (.ok out) →
      (out.length : Int) = size) ∧
    (∀ e g, fetchArweaveChunks endOffset size resps fuel = some (.incomplete e g) →
      e = size ∧ (g : Int) ≠ size) :=
  ⟨fun out h => asmRun_ok_length size resps fuel _ out h,
   fun e g h => asmRun_incomplete size resps fuel _ e g h⟩

theorem fetchArweaveChunks_exact_size_witness :
    fetchArweaveChunks 2 3 (fun p => some ⟨p, [5, 6, 7]⟩) 2 = some (.ok [5, 6, 7]) ∧
      (([5, 6, 7] : List Nat).length : Int) = 3 :=
  ⟨by decide,
   (fetchArweaveChunks_exact_size 2 3 (fun p => some ⟨p, [5, 6, 7]⟩) 2).1 [5, 6, 7] (by decide)⟩

/-- Claim C2, counterexample. With responses that are honest about the
payload (every response's bytes equal the payload bytes of its claimed
range) but where the response for position 2 is a chunk lying entirely
before that position, the assembly loop duplicates a byte and drops
another: for a 3-byte payload `[0, 1, 2]` it returns `ok [0, 1, 1]` —
the usable slices are not non-overlapping and gap-free, and their
concatenation differs from the payload over the range, even though the
length check passes.  (The adversarial window with `start = 0 < 2 =
nextPos` also has only 1 byte dropped, not `nextPos - start = 2`.) -/
theorem assembly_duplication_counterexample :
    fetchArweaveChunks 2 3 dupResps 4 = some (.ok [0, 1, 1]) ∧
    dupResps 0 = some ⟨0, [0, 1]⟩ ∧ ([0, 1] : List Nat) = payloadWindow idPayload 0 2 ∧
    dupResps 2 = some ⟨0, [0]⟩ ∧ ([0] : List Nat) = payloadWindow idPayload 0 1 ∧
    dupResps 1 = some ⟨1, [1, 2]⟩ ∧ ([1, 2] : List Nat) = payloadWindow idPayload 1 2 ∧
    payloadWindow idPayload (startOffsetOf 2 3) 3 = [0, 1, 2] ∧
    ([0, 1, 1] : List Nat) ≠ [0, 1, 2] := by
  refine ⟨by decide, by decide, by decide, by decide, by decide, by decide, by decide,
    by decide, by decide⟩

/-- Claim C2, amended. For every sequence of chunk responses in which
each response contains the requested position (`start ≤ p < start +
len`) and is honest about the payload bytes of its claimed range: a
chunk starting before the next unread position has exactly
`nextPos - start` bytes dropped from its front, the remainder is
truncated so the accumulated length never exceeds the resolved size,
`nextPos` advances to `start + len(chunkBytes)`, and the assembled
output equals the payload bytes over the resolved range — consecutive
usable slices cover increasing, non-overlapping, gap-free ranges. -/
theorem assembly_faithful (payload : Int → Nat) (endOffset size : Int)
    (resps : Int → Option ChunkResp) (fuel : Nat) (out : List Nat)
    (hhon : ∀ p r, resps p = some r →
      r.buf = payloadWindow payload r.start r.buf.length)
    (hcon : ∀ p r, resps p = some r →
      r.start ≤ p ∧ p < r.start + (r.buf.length : Int))
    (hok : fetchArweaveChunks endOffset size resps fuel = some (.ok out)) :
    out = payloadWindow payload (startOffsetOf endOffset size) size.toNat ∧
    (∀ (st : AsmState) (r : ChunkResp),
      (asmStep size st r).nextPos = r.start + r.buf.length) ∧
    (∀ (st : AsmState) (r : ChunkResp), r.start ≤ st.nextPos →
      (sliceStartOf st.nextPos r : Int) = st.nextPos - r.start) ∧
    (∀ (st : AsmState) (r : ChunkResp), 0 ≤ st.bytesAccum → st.bytesAccum ≤ size →
      (asmStep size st r).bytesAccum ≤ size) := by
  refine ⟨?_, fun st r => rfl, ?_, ?_⟩
  · by_cases hsz : 0 ≤ size
    · refine asmRun_faithful_aux payload size resps hhon hcon
        (startOffsetOf endOffset size) fuel _ out ?_ ?_ ?_ ?_ hok
      · show ([] : List (List Nat)).flatten = payloadWindow payload _ ((0 : Int)).toNat
        rfl
      · exact le_refl 0
      · exact hsz
      · intro _
        show startOffsetOf endOffset size = startOffsetOf endOffset size + 0
        omega
    · exfalso
      rcases fuel with _ | n
      · exact absurd hok (by simp [fetchArweaveChunks, asmRun])
      · rw [fetchArweaveChunks, asmRun] at hok
        rw [if_neg (show ¬ ((0 : Int) < size) by omega)] at hok
        rw [if_neg (by show ¬ (((([] : List (List Nat)).flatten.length : Nat) : Int) = size); simp; omega)] at hok
        exact absurd hok (by simp)
  · intro st r hc1
    unfold sliceStartOf
    split
    · rw [Int.toNat_of_nonneg (by omega)]
    · next hlt => simp; omega
  · intro st r h0 hle
    have hl := usableSlice_length_le size st r
    show st.bytesAccum + ((usableSlice size st r).length : Int) ≤ size
    omega

theorem assembly_faithful_witness :
    ([0, 1] : List Nat) = payloadWindow idPayload (startOffsetOf 1 2) ((2 : Int)).toNat :=
  (assembly_faithful idPayload 1 2 honestResps 2 [0, 1]
    (by
      intro p r h
      obtain rfl := Option.some.inj h
      show [p.toNat, (p + 1).toNat] = payloadWindow idPayload p 2
      simp [payloadWindow, idPayload, List.range_succ])
    (by
      intro p r h
      obtain rfl := Option.some.inj h
      refine ⟨le_refl p, ?_⟩
      show p < p + ((2 : Nat) : Int)
      omega)
    (by decide)).1

/-- Claim C4, counterexample. The assembly loop does not always
terminate, and it has no identical-`nextPos` progress check: against
`stallResps` — whose every response reports an end offset placing the
chunk entirely before the requested position — the loop repeats the
same `nextPos` forever, and for every amount of fuel the run neither
completes nor fails with any error (in particular no `NetworkFailure`
is raised). -/
theorem assembly_no_progress_counterexample : stallDiverges := by
  intro fuel
  exact stallResps_no_exit fuel _ (by norm_num)

/-- Claim C4, amended. When every chunk response contains the requested
position, each iteration makes strict progress, so the loop terminates
(fuel `size.toNat + 1` suffices) — but the source contains no
no-progress check: a response sequence whose chunks end before the
requested position makes the loop run forever without raising
`NetworkFailure` (see the counterexample). -/
theorem assembly_terminates_with_containment (endOffset size : Int)
    (resps : Int → Option ChunkResp)
    (hcon : ∀ p r, resps p = some r →
      r.start ≤ p ∧ p < r.start + (r.buf.length : Int)) :
    fetchArweaveChunks endOffset size resps (size.toNat + 1) ≠ none := by
  apply asmRun_progress size resps hcon
  show (size - (0 : Int)).toNat < size.toNat + 1
  omega

theorem assembly_terminates_with_containment_witness :
    fetchArweaveChunks 0 1 (fun p => some ⟨p, [3]⟩) ((1 : Int).toNat + 1) ≠ none :=
  assembly_terminates_with_containment 0 1 _
    (by
      intro p r h
      obtain rfl := Option.some.inj h
      refine ⟨le_refl p, ?_⟩
      show p < p + ((1 : Nat) : Int)
      omega)

/-- Claim C8. `fetchTxOffset` tries the peers strictly in list order in a
single pass: a success returns the fields of the first peer whose reply
carries both `offset` and `size` (every earlier peer's reply lacks one),
a reply missing either field counts as that peer's failure, and the
aggregated error — with exactly one entry per peer — is thrown exactly
when every peer has been exhausted. -/
theorem fetchTxOffset_first_success (peers : List String) (reply : String → OffsetReply) :
    (∀ p o s, fetchTxOffset peers reply = .ok (p, o, s) →
        reply p = .json (some o) (some s) ∧
        ∃ pre suf, peers = pre ++ p :: suf ∧
          ∀ q ∈ pre, wellFormedReply (reply q) = false) ∧
    (∀ errs, fetchTxOffset peers reply = .error errs →
        (∀ p ∈ peers, wellFormedReply (reply p) = false) ∧
        errs.length = peers.length) ∧
    ((∀ p ∈ peers, wellFormedReply (reply p) = false) →
        ∃ errs, fetchTxOffset peers reply = .error errs ∧ errs.length = peers.length) := by
  refine ⟨fun p o s h => fetchTxOffsetGo_ok reply peers [] p o s h,
    fun errs h => ?_, fun hall => ?_⟩
  · obtain ⟨h1, h2⟩ := fetchTxOffsetGo_error reply peers [] errs h
    exact ⟨h1, by simpa using h2⟩
  · obtain ⟨errs, herrs⟩ := fetchTxOffsetGo_error_of_all reply peers [] hall
    obtain ⟨-, h2⟩ := fetchTxOffsetGo_error reply peers [] errs herrs
    exact ⟨errs, herrs, by simpa using h2⟩

theorem fetchTxOffset_first_success_witness :
    replyW "b" = OffsetReply.json (some 999) (some 1000) :=
  ((fetchTxOffset_first_success ["a", "b"] replyW).1 "b" 999 1000 rfl).1

/-- Claim C5, counterexample. In the 4-chunk scenario where every try of
the chunk at index 2 returns a non-success status and the others
succeed, the reported failed-chunk list is `[3]`, not `[2]`: the source
records `i + 1`, the one-based position, not the zero-based index. -/
theorem reuploadChunks_failed_list_counterexample :
    reuploadChunks 4 scenOutcome = .error [3] ∧ ([3] : List Nat) ≠ [2] := by
  refine ⟨?_, by decide⟩
  simp [reuploadChunks, reuploadState, scenOutcome, chunkLoop, isSuccess,
    MAX_RETRIES_PER_CHUNK, RETRY_DELAY_MS_BASE, List.range_succ]

/-- Claim C5, amended. `reuploadChunks` succeeds iff every chunk
succeeded, where HTTP statuses 200 and 208 both count as success (a
chunk succeeds iff some try within the retry budget gets such a status);
otherwise it fails reporting the full list of failed chunks — recorded
as one-based positions `i + 1`, so in the 4-chunk scenario with index 2
failing, the reported list is `[3]` while chunks 0, 1, 3 succeed. -/
theorem reuploadChunks_success_iff (n : Nat) (outcome : Nat → Nat → TryResult) :
    ((∃ k, reuploadChunks n outcome = .ok k) ↔
        ∀ i, i < n → (chunkLoop (outcome i) 0).success = true) ∧
    (∀ failed, reuploadChunks n outcome = .error failed →
        failed = ((List.range n).filter
          (fun i => !(chunkLoop (outcome i) 0).success)).map (· + 1)) ∧
    isSuccess (.status 200) = true ∧ isSuccess (.status 208) = true ∧
    (∀ oc : Nat → TryResult, (chunkLoop oc 0).success = true ↔
        ∃ t, t ≤ MAX_RETRIES_PER_CHUNK ∧ isSuccess (oc t) = true) := by
  have hst := reuploadState_spec outcome n
  refine ⟨⟨?_, ?_⟩, ?_, by decide, by decide, fun oc => ?_⟩
  · rintro ⟨k, hk⟩
    simp only [reuploadChunks, hst] at hk
    by_cases hc : (List.range n).countP (fun i => (chunkLoop (outcome i) 0).success) = n
    · intro i hi
      have := List.countP_eq_length.mp (by rw [hc, List.length_range])
      exact this i (List.mem_range.mpr hi)
    · rw [if_neg hc] at hk
      exact absurd hk (by simp)
  · intro hall
    have hc : (List.range n).countP (fun i => (chunkLoop (outcome i) 0).success) = n := by
      have := List.countP_eq_length.mpr fun i hi => hall i (List.mem_range.mp hi)
      simpa [List.length_range] using this
    exact ⟨n, by simp only [reuploadChunks, hst]; rw [if_pos hc, hc]⟩
  · intro failed h
    simp only [reuploadChunks, hst] at h
    by_cases hc : (List.range n).countP (fun i => (chunkLoop (outcome i) 0).success) = n
    · rw [if_pos hc] at h
      exact absurd h (by simp)
    · rw [if_neg hc] at h
      exact (Except.error.inj h).symm
  · simpa using chunkLoop_success_general oc MAX_RETRIES_PER_CHUNK 0 rfl

theorem reuploadChunks_success_iff_witness :
    ([3] : List Nat) =
      ((List.range 4).filter (fun i => !(chunkLoop (scenOutcome i) 0).success)).map
        (· + 1) :=
  (reuploadChunks_success_iff 4 scenOutcome).2.1 [3]
    (by simp [reuploadChunks, reuploadState, scenOutcome, chunkLoop, isSuccess,
      MAX_RETRIES_PER_CHUNK, RETRY_DELAY_MS_BASE, List.range_succ])

/-- Claim C6, counterexample. A chunk whose validation fails on every try
is not recorded as failed immediately: the loop performs 5 retries (the
`attempt` counter reaches 6) with the full backoff schedule before
giving up, so the delay list is not empty. -/
theorem validation_failure_retried_counterexample :
    chunkLoop (fun _ => .validationFail) 0 =
      { success := false, attemptsUsed := 6,
        delays := [750, 1500, 2250, 3000, 3750] } ∧
    (chunkLoop (fun _ => .validationFail) 0).delays ≠ [] := by
  have h : chunkLoop (fun _ => .validationFail) 0 =
      { success := false, attemptsUsed := 6,
        delays := [750, 1500, 2250, 3000, 3750] } := by
    simp [chunkLoop, isSuccess, MAX_RETRIES_PER_CHUNK, RETRY_DELAY_MS_BASE]
  exact ⟨h, by rw [h]; simp⟩

/-- Claim C6, amended. A Merkle-validation failure is handled through the
very same retry path as a transient network error: any chunk whose tries
all fail — by validation or by status — is retried
`MAX_RETRIES_PER_CHUNK` times with the full linear backoff schedule and
only then recorded as failed. -/
theorem chunkLoop_validation_same_as_transient (outcome : Nat → TryResult)
    (h : ∀ t, isSuccess (outcome t) = false) :
    chunkLoop outcome 0 =
      { success := false, attemptsUsed := MAX_RETRIES_PER_CHUNK + 1,
        delays := [750, 1500, 2250, 3000, 3750] } := by
  simp [chunkLoop, h, MAX_RETRIES_PER_CHUNK, RETRY_DELAY_MS_BASE]

theorem chunkLoop_validation_same_as_transient_witness :
    chunkLoop (fun _ => TryResult.validationFail) 0 =
      { success := false, attemptsUsed := MAX_RETRIES_PER_CHUNK + 1,
        delays := [750, 1500, 2250, 3000, 3750] } :=
  chunkLoop_validation_same_as_transient _ (fun _ => rfl)

/-- Claim C7. For every chunk, the number of retries (sleeps) never
exceeds the configured maximum of 5; the delay before retry `n` equals
`RETRY_DELAY_MS_BASE * n`, so the schedule is strictly increasing; and
after a chunk exhausts its budget the batch records it and still
processes every other chunk: success count plus failed count equals the
total, and every failed chunk appears in the failed list. -/
theorem chunk_retry_budget (outcome : Nat → TryResult) (n : Nat)
    (oc : Nat → Nat → TryResult) :
    (chunkLoop outcome 0).delays.length ≤ MAX_RETRIES_PER_CHUNK ∧
    (chunkLoop outcome 0).delays =
      (List.range (chunkLoop outcome 0).delays.length).map
        (fun k => RETRY_DELAY_MS_BASE * (k + 1)) ∧
    List.Pairwise (· < ·) (chunkLoop outcome 0).delays ∧
    (reuploadState n oc).1 + (reuploadState n oc).2.length = n ∧
    (∀ i, i < n → (chunkLoop (oc i) 0).success = false →
      (i + 1) ∈ (reuploadState n oc).2) := by
  obtain ⟨hl, hd⟩ := chunkLoop_delays_general outcome MAX_RETRIES_PER_CHUNK 0 rfl
  have hd' : (chunkLoop outcome 0).delays =
      (List.range (chunkLoop outcome 0).delays.length).map
        (fun k => RETRY_DELAY_MS_BASE * (k + 1)) := by
    conv_lhs => rw [hd]
    exact List.map_congr_left fun k _ => by
      show RETRY_DELAY_MS_BASE * (0 + 1 + k) = RETRY_DELAY_MS_BASE * (k + 1)
      congr 1
      omega
  refine ⟨hl, hd', ?_, ?_, ?_⟩
  · rw [hd']
    refine (List.pairwise_lt_range _).map _ ?_
    intro a b hab
    have hB : 0 < RETRY_DELAY_MS_BASE := by decide
    exact (Nat.mul_lt_mul_left hB).mpr (by omega)
  · rw [reuploadState_spec]
    simp only
    rw [List.length_map, ← List.countP_eq_length_filter]
    have h := List.length_eq_countP_add_countP
      (fun i => (chunkLoop (oc i) 0).success) (List.range n)
    have e : (fun i => decide (¬ (chunkLoop (oc i) 0).success = true)) =
        (fun i => !(chunkLoop (oc i) 0).success) := by
      funext i; cases (chunkLoop (oc i) 0).success <;> simp
    rw [e] at h
    rw [List.length_range] at h
    omega
  · intro i hi hfail
    rw [reuploadState_spec]
    simp only
    exact List.mem_map.mpr ⟨i, List.mem_filter.mpr
      ⟨List.mem_range.mpr hi, by simp [hfail]⟩, rfl⟩

theorem chunk_retry_budget_witness :
    (1 : Nat) ∈ (reuploadState 1 (fun _ _ => TryResult.status 404)).2 :=
  (chunk_retry_budget (fun _ => TryResult.status 404) 1
      (fun _ _ => TryResult.status 404)).2.2.2.2 0 (by decide)
    (by simp [chunkLoop, isSuccess, MAX_RETRIES_PER_CHUNK, RETRY_DELAY_MS_BASE])

/-- Claim C10, counterexample. `normalisePeer` removes at most one
trailing slash, so for the input `"a//"` the output `"http://a/"` still
ends in a slash, and applying the function to that output strips the
remaining slash, yielding a different string — the function is not
idempotent on its own outputs. -/
theorem normalisePeer_counterexample :
    normalisePeer "a//".toList = some "http://a/".toList ∧
    "http://a/".toList.getLast? = some '/' ∧
    normalisePeer "http://a/".toList = some "http://a".toList ∧
    some "http://a".toList ≠ some "http://a/".toList := by
  refine ⟨by decide, by decide, by decide, by decide⟩

/-- Claim C10, amended. Peer normalisation returns `none` exactly when
the trimmed input is empty.  It removes at most one trailing slash, so
outputs may still end in `/` and the function is not idempotent in
general; but for every input whose trimmed form is nonempty and does not
end in a slash, the output carries an `http://`/`https://` scheme
(case-insensitively, prefixing `http://` when absent), has no trailing
slash, and is a fixed point of `normalisePeer`. -/
theorem normalisePeer_spec (p : List Char) :
    (normalisePeer p = none ↔ jsTrim p = []) ∧
    (jsTrim p ≠ [] → (jsTrim p).getLast? ≠ some '/' →
      ∃ u, normalisePeer p = some u ∧
        hasHttpScheme u = true ∧
        u.getLast? ≠ some '/' ∧
        normalisePeer u = some u) := by
  constructor
  · simp only [normalisePeer]
    by_cases h : jsTrim p = []
    · simp [h]
    · simp [h]
  · intro hne hsl
    by_cases hs : hasHttpScheme (jsTrim p)
    · refine ⟨jsTrim p, ?_, hs, hsl, ?_⟩
      · simp only [normalisePeer]
        rw [if_neg hne, if_pos hs]
        simp only [dropTrailingSlash]
        rw [if_neg hsl]
      · have htr : jsTrim (jsTrim p) = jsTrim p :=
          jsTrim_eq_self _ (fun c hc => head?_jsTrim p c hc)
            (fun c hc => getLast?_jsTrim p c hc)
        simp only [normalisePeer]
        rw [htr, if_neg hne, if_pos hs]
        simp only [dropTrailingSlash]
        rw [if_neg hsl]
    · have hlastu : ("http://".toList ++ jsTrim p).getLast? = (jsTrim p).getLast? :=
        List.getLast?_append_of_ne_nil _ hne
      have hschemeu : hasHttpScheme ("http://".toList ++ jsTrim p) = true := by
        simp only [hasHttpScheme]
        rw [List.map_append]
        have hlow : "http://".toList.map Char.toLower = "http://".toList := by decide
        rw [hlow]
        have hpref : List.isPrefixOf "http://".toList
            ("http://".toList ++ (jsTrim p).map Char.toLower) = true := by
          rw [List.isPrefixOf_iff_prefix]
          exact List.prefix_append _ _
        rw [hpref]
        simp
      refine ⟨"http://".toList ++ jsTrim p, ?_, hschemeu,
        by rw [hlastu]; exact hsl, ?_⟩
      · simp only [normalisePeer]
        rw [if_neg hne, if_neg hs]
        simp only [dropTrailingSlash]
        rw [if_neg (by rw [hlastu]; exact hsl)]
      · have htru : jsTrim ("http://".toList ++ jsTrim p) =
            "http://".toList ++ jsTrim p := by
          apply jsTrim_eq_self
          · intro c hc
            have hh : ("http://".toList ++ jsTrim p).head? = some 'h' := rfl
            rw [hh] at hc
            injection hc with hc
            rw [← hc]
            decide
          · intro c hc
            rw [hlastu] at hc
            exact getLast?_jsTrim p c hc
        simp only [normalisePeer]
        rw [htru, if_neg (by simp), if_pos hschemeu]
        simp only [dropTrailingSlash]
        rw [if_neg (by rw [hlastu]; exact hsl)]

theorem normalisePeer_spec_witness :
    normalisePeer "a".toList = some "http://a".toList ∧
    hasHttpScheme "http://a".toList = true ∧
    normalisePeer "http://a".toList = some "http://a".toList := by
  obtain ⟨u, hu1, hu2, _, hu4⟩ :=
    (normalisePeer_spec "a".toList).2 (by decide) (by decide)
  have hu : u = "http://a".toList := by
    have h2 : normalisePeer "a".toList = some "http://a".toList := by decide
    rw [h2] at hu1
    exact (Option.some.inj hu1).symm
  rw [hu] at hu1 hu2 hu4
  exact ⟨hu1, hu2, hu4⟩

end Backfill

